import Mathlib

/-!
Verification development for the repository-metadata ingestion engine
(`RepositoryService.createRepository` in the Reepos backend).

The JavaScript service is shallowly embedded: the extraction result
(`repoInfo`) and the external collaborators (validation handler, backend
existence check, duplicate-ownership check, language registry) are inputs,
and the persistence store is threaded explicitly as a record of row lists.
Every database `save` appends a row; rows that carry a database id receive
the store's next fresh id.  A JavaScript `TypeError` thrown by
dereferencing a failed `find` is modelled by the `fault` outcome.
-/

namespace Reepos

/-- Extracted branch: element of the `branches` collection produced by `repoInfo`. -/
structure BranchIn where
  name : String
  type : String
deriving DecidableEq, Repr

/-- Extracted commit: element of the `commits` collection produced by `repoInfo`. -/
structure CommitIn where
  title : String
  content : String
  hash : String
  author : String
  created_at : String
  branches : List String
deriving DecidableEq, Repr

/-- Extracted file: element of the `files` collection produced by `repoInfo`.
Sizes are carried opaquely as strings (the code stores them unchanged and
uses the string sentinel "N/A" for reconstructed files). -/
structure FileIn where
  name : String
  size : String
  path : String
deriving DecidableEq, Repr

/-- Extracted modification: element of the `modifications` collection. -/
structure ModIn where
  type : String
  file : String
  commit : String
deriving DecidableEq, Repr

/-- The full extraction result returned by `repoInfo(name)`. -/
structure RepoInfoData where
  commits : List CommitIn
  files : List FileIn
  branches : List BranchIn
  contributors : List String
  modifications : List ModIn
deriving DecidableEq, Repr

/-- Persisted repository row (`Repository.save`). -/
structure RepoRow where
  id : Nat
  name : String
  description : String
  user_owner : Nat
deriving DecidableEq, Repr

/-- Persisted repository-language join row (`Repository_Language.save`). -/
structure RepoLangRow where
  repo : Nat
  language : String
deriving DecidableEq, Repr

/-- Persisted contributor row (`Contributor.save`). -/
structure ContributorRow where
  id : Nat
  name : String
  repo : Nat
deriving DecidableEq, Repr

/-- Persisted branch row (`Branch.save`). -/
structure BranchRow where
  id : Nat
  name : String
  type : String
  repo : Nat
deriving DecidableEq, Repr

/-- Persisted commit row (`Commit.save`). -/
structure CommitRow where
  id : Nat
  title : String
  content : String
  hash : String
  author : Nat
  created_at : String
  repo : Nat
deriving DecidableEq, Repr

/-- Persisted commit-branch join row (`Commit_Branch.save`). -/
structure CommitBranchRow where
  commit : Nat
  branch : Nat
deriving DecidableEq, Repr

/-- Persisted file row (`File.save`).  `language` is `none` when the
registry lookup misses or when the saving call omits the field (as the
reconciliation pass does). -/
structure FileRow where
  id : Nat
  name : String
  size : String
  path : String
  repo : Nat
  language : Option Nat
deriving DecidableEq, Repr

/-- Persisted modification row (`Modification.save`).  The service never
reads a modification's own id, so the row only keeps its payload. -/
structure ModRow where
  type : String
  commit : Nat
  file : Nat
deriving DecidableEq, Repr

/-- The relational store: one list per table, in insertion order, plus the
next fresh id handed out to id-carrying rows. -/
structure Store where
  nextId : Nat
  repos : List RepoRow
  repoLangs : List RepoLangRow
  contributors : List ContributorRow
  branches : List BranchRow
  commits : List CommitRow
  commitBranches : List CommitBranchRow
  files : List FileRow
  modifications : List ModRow
deriving DecidableEq, Repr

/-- The empty store, before any ingestion. -/
def Store.empty : Store :=
  { nextId := 0, repos := [], repoLangs := [], contributors := [], branches := [],
    commits := [], commitBranches := [], files := [], modifications := [] }

/-- Error tags used by the service layer (`lib/constants/errors.js`). -/
inductive ErrType
  | BAD_REQUEST
  | NOT_FOUND
  | FORBIDDEN
  | CONFLICT
deriving DecidableEq, Repr

/-- Outcome of a `createRepository` call: a successful `ServiceResult`, a
tagged `ServiceError`, or an unhandled JavaScript fault (thrown
`TypeError`) that escapes the service. -/
inductive RunResult
  | success
  | err (message : String) (etype : ErrType)
  | fault (message : String)
deriving DecidableEq, Repr

/-- The message of the `TypeError` raised by dereferencing the result of a
failed `Array.prototype.find` (`.find(...).id` on `undefined`). -/
def faultMsg : String := "TypeError: Cannot read properties of undefined"

/-- External collaborators of one `createRepository` call: the aggregated
validation result (error message, or the actor id resolved from the
token), the backend existence check, the duplicate-ownership check, the
language registry, and the extraction result for the requested name. -/
structure Ctx where
  validation : Except String Nat
  existsBackend : Bool
  userHasRepo : Bool
  langExists : String → Bool
  getByExt : String → Option Nat
  info : RepoInfoData

/-- JavaScript `Array/String.prototype.lastIndexOf`: index of the last
occurrence of `c` in `l`, or `-1` when absent. -/
def jsLastIndexOf (l : List Char) (c : Char) : Int :=
  match l with
  | [] => -1
  | x :: xs =>
      let r := jsLastIndexOf xs c
      if r = -1 then (if x = c then 0 else -1) else r + 1

/-- JavaScript `String.prototype.slice(start)` for a non-negative start. -/
def jsSliceFrom (s : String) (start : Nat) : String :=
  ⟨s.data.drop start⟩

/-- `file.name.slice(file.name.lastIndexOf(".") + 1)`: the extension string
handed to the language registry. -/
def extOf (name : String) : String :=
  jsSliceFrom name (jsLastIndexOf name.data '.' + 1).toNat

/-- `modification.file.slice(modification.file.lastIndexOf("/") + 1)`: the
name given to a reconciliation placeholder file. -/
def baseNameOf (path : String) : String :=
  jsSliceFrom path (jsLastIndexOf path.data '/' + 1).toNat

/-- `Repository.save`: persist the repository row. -/
def Store.saveRepo (st : Store) (name description : String) (owner : Nat) :
    RepoRow × Store :=
  let row : RepoRow := ⟨st.nextId, name, description, owner⟩
  (row, { st with nextId := st.nextId + 1, repos := st.repos ++ [row] })

/-- `Repository_Language.save`: persist one repository-language join row. -/
def Store.saveRepoLang (st : Store) (repoId : Nat) (language : String) : Store :=
  { st with repoLangs := st.repoLangs ++ [⟨repoId, language⟩] }

/-- `Contributor.save`: persist one contributor row. -/
def Store.saveContributor (st : Store) (name : String) (repoId : Nat) :
    ContributorRow × Store :=
  let row : ContributorRow := ⟨st.nextId, name, repoId⟩
  (row, { st with nextId := st.nextId + 1, contributors := st.contributors ++ [row] })

/-- `Branch.save`: persist one branch row. -/
def Store.saveBranch (st : Store) (name type : String) (repoId : Nat) :
    BranchRow × Store :=
  let row : BranchRow := ⟨st.nextId, name, type, repoId⟩
  (row, { st with nextId := st.nextId + 1, branches := st.branches ++ [row] })

/-- `Commit.save`: persist one commit row. -/
def Store.saveCommit (st : Store) (title content hash : String) (author : Nat)
    (created_at : String) (repoId : Nat) : CommitRow × Store :=
  let row : CommitRow := ⟨st.nextId, title, content, hash, author, created_at, repoId⟩
  (row, { st with nextId := st.nextId + 1, commits := st.commits ++ [row] })

/-- `Commit_Branch.save`: persist one commit-branch join row. -/
def Store.saveCommitBranch (st : Store) (commitId branchId : Nat) : Store :=
  { st with commitBranches := st.commitBranches ++ [⟨commitId, branchId⟩] }

/-- `File.save`: persist one file row. -/
def Store.saveFile (st : Store) (name size path : String) (repoId : Nat)
    (language : Option Nat) : FileRow × Store :=
  let row : FileRow := ⟨st.nextId, name, size, path, repoId, language⟩
  (row, { st with nextId := st.nextId + 1, files := st.files ++ [row] })

/-- `Modification.save`: persist one modification row. -/
def Store.saveMod (st : Store) (type : String) (commitId fileId : Nat) :
    ModRow × Store :=
  let row : ModRow := ⟨type, commitId, fileId⟩
  (row, { st with modifications := st.modifications ++ [row] })

/-- The `for (const language of languages)` loop relating languages with
the repository. -/
def saveRepoLangs (repoId : Nat) : Store → List String → Store
  | st, [] => st
  | st, l :: ls => saveRepoLangs repoId (st.saveRepoLang repoId l) ls

/-- The `for (const contributor of contributors)` loop, collecting
`contributorsSaved` in order. -/
def saveContributors (repoId : Nat) : Store → List String → List ContributorRow × Store
  | st, [] => ([], st)
  | st, n :: ns =>
      let p := st.saveContributor n repoId
      let q := saveContributors repoId p.2 ns
      (p.1 :: q.1, q.2)

/-- The `for (const branch of branches)` loop, collecting `branchesSaved`
in order. -/
def saveBranches (repoId : Nat) : Store → List BranchIn → List BranchRow × Store
  | st, [] => ([], st)
  | st, b :: bs =>
      let p := st.saveBranch b.name b.type repoId
      let q := saveBranches repoId p.2 bs
      (p.1 :: q.1, q.2)

/-- The inner `for (const branchSaved of commitBranchesSaved)` loop. -/
def saveCommitBranches (commitId : Nat) : Store → List BranchRow → Store
  | st, [] => st
  | st, b :: bs => saveCommitBranches commitId (st.saveCommitBranch commitId b.id) bs

/-- The `for (const commit of commits)` loop.  The author lookup
`contributorsSaved.find((c) => c.name == commit.author).id` faults when no
contributor matches; the rows written so far stay in the store. -/
def saveCommits (repoId : Nat) (contributorsSaved : List ContributorRow)
    (branchesSaved : List BranchRow) :
    Store → List CommitIn → Except String (List CommitRow) × Store
  | st, [] => (.ok [], st)
  | st, c :: cs =>
      match contributorsSaved.find? (fun r => r.name == c.author) with
      | none => (.error faultMsg, st)
      | some contributor =>
          let p := st.saveCommit c.title c.content c.hash contributor.id c.created_at repoId
          let commitBranchesSaved := branchesSaved.filter (fun b => c.branches.contains b.name)
          let st2 := saveCommitBranches p.1.id p.2 commitBranchesSaved
          match saveCommits repoId contributorsSaved branchesSaved st2 cs with
          | (.ok rows, st3) => (.ok (p.1 :: rows), st3)
          | (.error m, st3) => (.error m, st3)

/-- The inner `for (const fileModification of fileModifications)` loop of
step 6.  The commit lookup `commitsSaved.find((c) => c.hash ==
fileModification.commit).id` faults when no commit matches. -/
def saveFileMods (commitsSaved : List CommitRow) (fileId : Nat) :
    Store → List ModIn → Except String Unit × Store
  | st, [] => (.ok (), st)
  | st, m :: ms =>
      match commitsSaved.find? (fun k => k.hash == m.commit) with
      | none => (.error faultMsg, st)
      | some k =>
          let p := st.saveMod m.type k.id fileId
          saveFileMods commitsSaved fileId p.2 ms

/-- The `for (const file of files)` loop: resolve the extension through the
registry, save the file, then save the modifications whose path matches
the file (collecting `filesSaved` in order). -/
def saveFiles (repoId : Nat) (getByExt : String → Option Nat)
    (commitsSaved : List CommitRow) (modifications : List ModIn) :
    Store → List FileIn → Except String (List FileRow) × Store
  | st, [] => (.ok [], st)
  | st, f :: fs =>
      let ext := extOf f.name
      let language_id := getByExt ext
      let p := st.saveFile f.name f.size f.path repoId language_id
      let fileModifications := modifications.filter (fun m => m.file == f.path)
      match saveFileMods commitsSaved p.1.id p.2 fileModifications with
      | (.error m, st2) => (.error m, st2)
      | (.ok _, st2) =>
          match saveFiles repoId getByExt commitsSaved modifications st2 fs with
          | (.ok rows, st3) => (.ok (p.1 :: rows), st3)
          | (.error m, st3) => (.error m, st3)

/-- The `for (const modification of deletedFilesModifications)` loop: the
reconciliation pass.  The commit is looked up first (and can fault), then
a placeholder file is saved with the sentinel size, the historical path,
the final path segment as name and no language field, and the deferred
modification is saved against it. -/
def saveDeleted (repoId : Nat) (commitsSaved : List CommitRow) :
    Store → List ModIn → Except String Unit × Store
  | st, [] => (.ok (), st)
  | st, m :: ms =>
      match commitsSaved.find? (fun k => k.hash == m.commit) with
      | none => (.error faultMsg, st)
      | some k =>
          let file_name := baseNameOf m.file
          let p := st.saveFile file_name "N/A" m.file repoId none
          let q := p.2.saveMod m.type k.id p.1.id
          saveDeleted repoId commitsSaved q.2 ms

/-- `RepositoryService.createRepository`: the pre-checks followed by the
ordered write cascade of steps 1-8, over an explicit store. -/
def createRepository (ctx : Ctx) (name description : String)
    (languages : List String) (st : Store) : RunResult × Store :=
  match ctx.validation with
  | .error msg => (.err msg .BAD_REQUEST, st)
  | .ok actor =>
      if ctx.existsBackend = false then
        (.err "Repositorio no existe en el servidor!" .NOT_FOUND, st)
      else if ctx.userHasRepo = true then
        (.err "Usuario ya tiene el repositorio!" .BAD_REQUEST, st)
      else
        match languages.find? (fun l => !(ctx.langExists l)) with
        | some lang =>
            (.err ("Lenguaje " ++ lang ++ " no existe en la base de datos!") .NOT_FOUND, st)
        | none =>
            let info := ctx.info
            let pr := st.saveRepo name description actor
            let repoSaved := pr.1
            let st2 := saveRepoLangs repoSaved.id pr.2 languages
            let pc := saveContributors repoSaved.id st2 info.contributors
            let pb := saveBranches repoSaved.id pc.2 info.branches
            match saveCommits repoSaved.id pc.1 pb.1 pb.2 info.commits with
            | (.error m, st5) => (.fault m, st5)
            | (.ok commitsSaved, st5) =>
                match saveFiles repoSaved.id ctx.getByExt commitsSaved
                    info.modifications st5 info.files with
                | (.error m, st6) => (.fault m, st6)
                | (.ok filesSaved, st6) =>
                    let deletedFilesModifications := info.modifications.filter
                      (fun m => !(filesSaved.any (fun f => f.path == m.file)))
                    match saveDeleted repoSaved.id commitsSaved st6
                        deletedFilesModifications with
                    | (.error m, st7) => (.fault m, st7)
                    | (.ok _, st7) => (.success, st7)

/-- Observation: the name of the branch row carrying a given id, read back
from the store. -/
def Store.branchNameOf (st : Store) (branchId : Nat) : Option String :=
  (st.branches.find? (fun b => b.id == branchId)).map (fun b => b.name)

/-- Observation: resolve a persisted modification row back to the hash of
its commit and the path of its file, as recorded in the store. -/
def modShadow (st : Store) (r : ModRow) : Option String × Option String × String :=
  ((st.commits.find? (fun k => k.id == r.commit)).map (fun k => k.hash),
   ((st.files.find? (fun f => f.id == r.file)).map (fun f => f.path), r.type))

/-- Concrete context: two modifications reference the same deleted path
"old/util.py", which is absent from the files listing. -/
def ctxOrphanDup : Ctx :=
  { validation := .ok 1, existsBackend := true, userHasRepo := false,
    langExists := fun _ => true, getByExt := fun _ => none,
    info := { commits := [⟨"t", "c", "h1", "alice", "now", []⟩], files := [],
              branches := [], contributors := ["alice"],
              modifications := [⟨"D", "old/util.py", "h1"⟩, ⟨"M", "old/util.py", "h1"⟩] } }

/-- Concrete context: the commit author "bob" has no match among the
extracted contributors. -/
def ctxUnknownAuthor : Ctx :=
  { validation := .ok 1, existsBackend := true, userHasRepo := false,
    langExists := fun _ => true, getByExt := fun _ => none,
    info := { commits := [⟨"t", "c", "h1", "bob", "now", []⟩], files := [],
              branches := [], contributors := ["alice"], modifications := [] } }

/-- Concrete context: the actor already owns a repository of the requested
name. -/
def ctxDupOwner : Ctx :=
  { validation := .ok 1, existsBackend := true, userHasRepo := true,
    langExists := fun _ => true, getByExt := fun _ => none,
    info := { commits := [], files := [], branches := [], contributors := [],
              modifications := [] } }

/-- Concrete context: the registry only knows the language "js", so a
declared language "cobol" is missing. -/
def ctxMissingLang : Ctx :=
  { validation := .ok 1, existsBackend := true, userHasRepo := false,
    langExists := fun l => l == "js", getByExt := fun _ => none,
    info := { commits := [], files := [], branches := [], contributors := [],
              modifications := [] } }

/-- Concrete context: a small full import with two branches, two commits
by one contributor, a recognized and an extensionless file, and one
modification for a deleted path. -/
def ctxDemo : Ctx :=
  { validation := .ok 1, existsBackend := true, userHasRepo := false,
    langExists := fun _ => true,
    getByExt := fun e => if e == "js" then some 7 else none,
    info := { commits := [⟨"t1", "c1", "h1", "alice", "now", ["main"]⟩,
                          ⟨"t2", "c2", "h2", "alice", "now", ["main", "feature"]⟩],
              files := [⟨"app.js", "10", "src/app.js"⟩, ⟨"Makefile", "5", "Makefile"⟩],
              branches := [⟨"main", "local"⟩, ⟨"feature", "local"⟩],
              contributors := ["alice"],
              modifications := [⟨"A", "src/app.js", "h1"⟩, ⟨"M", "src/app.js", "h2"⟩,
                                ⟨"A", "Makefile", "h1"⟩, ⟨"D", "old/util.py", "h2"⟩] } }

/-! ### Properties of the JavaScript string helpers -/

theorem jsLastIndexOf_of_not_mem (l : List Char) (c : Char) (h : c ∉ l) :
    jsLastIndexOf l c = -1 := by
  induction l with
  | nil => rfl
  | cons x xs ih =>
      have hx : x ≠ c := fun hxc => h (hxc ▸ List.mem_cons_self x xs)
      have hxs : c ∉ xs := fun hc => h (List.mem_cons_of_mem x hc)
      simp [jsLastIndexOf, ih hxs, hx]

theorem jsLastIndexOf_spec (l : List Char) (c : Char) :
    (jsLastIndexOf l c = -1 ∧ c ∉ l) ∨
    (∃ i : Nat, jsLastIndexOf l c = (i : Int) ∧
      l.drop i = c :: l.drop (i + 1) ∧ c ∉ l.drop (i + 1)) := by
  induction l with
  | nil => exact Or.inl ⟨rfl, List.not_mem_nil c⟩
  | cons x xs ih =>
      rcases ih with ⟨hr, hmem⟩ | ⟨i, hr, hdrop, hmem⟩
      · by_cases hx : x = c
        · refine Or.inr ⟨0, ?_, ?_, ?_⟩
          · simp [jsLastIndexOf, hr, hx]
          · simp [hx]
          · simpa using hmem
        · refine Or.inl ⟨?_, ?_⟩
          · simp [jsLastIndexOf, hr, hx]
          · intro hc
            rcases List.mem_cons.mp hc with h1 | h1
            · exact hx h1.symm
            · exact hmem h1
      · refine Or.inr ⟨i + 1, ?_, ?_, ?_⟩
        · have : (i : Int) ≠ -1 := by omega
          simp [jsLastIndexOf, hr, this]
        · simpa using hdrop
        · simpa using hmem

theorem extOf_of_no_dot (s : String) (h : '.' ∉ s.data) : extOf s = s := by
  unfold extOf jsSliceFrom
  rw [jsLastIndexOf_of_not_mem _ _ h]
  rfl

theorem baseNameOf_no_slash (s : String) : '/' ∉ (baseNameOf s).data := by
  unfold baseNameOf jsSliceFrom
  rcases jsLastIndexOf_spec s.data '/' with ⟨hr, hmem⟩ | ⟨i, hr, _, hmem⟩
  · rw [hr]
    simpa using hmem
  · rw [hr]
    have : ((i : Int) + 1).toNat = i + 1 := by omega
    rw [this]
    exact hmem

theorem baseNameOf_splits (s : String) :
    baseNameOf s = s ∨ ∃ pre : List Char, s.data = pre ++ '/' :: (baseNameOf s).data := by
  unfold baseNameOf jsSliceFrom
  rcases jsLastIndexOf_spec s.data '/' with ⟨hr, _⟩ | ⟨i, hr, hdrop, _⟩
  · left
    rw [hr]
    rfl
  · right
    refine ⟨s.data.take i, ?_⟩
    rw [hr]
    have hto : ((i : Int) + 1).toNat = i + 1 := by omega
    rw [hto]
    show s.data = s.data.take i ++ '/' :: s.data.drop (i + 1)
    conv_lhs => rw [← List.take_append_drop i s.data]
    rw [hdrop]

/-! ### Generic list helpers -/

theorem forall₂_imp_mem {α β : Type} {R S : α → β → Prop} :
    ∀ {l₁ : List α} {l₂ : List β}, List.Forall₂ R l₁ l₂ →
      (∀ a b, a ∈ l₁ → b ∈ l₂ → R a b → S a b) → List.Forall₂ S l₁ l₂
  | [], [], List.Forall₂.nil, _ => List.Forall₂.nil
  | _ :: _, _ :: _, List.Forall₂.cons h hs, himp =>
      List.Forall₂.cons
        (himp _ _ (List.mem_cons_self _ _) (List.mem_cons_self _ _) h)
        (forall₂_imp_mem hs fun a b ha hb hr =>
          himp a b (List.mem_cons_of_mem _ ha) (List.mem_cons_of_mem _ hb) hr)

theorem forall₂_mem_right {α β : Type} {R : α → β → Prop} :
    ∀ {l₁ : List α} {l₂ : List β}, List.Forall₂ R l₁ l₂ →
      ∀ {b}, b ∈ l₂ → ∃ a ∈ l₁, R a b
  | _, _, List.Forall₂.cons h hs, b, hb => by
      rcases List.mem_cons.mp hb with hb | hb
      · exact ⟨_, List.mem_cons_self _ _, hb ▸ h⟩
      · rcases forall₂_mem_right hs hb with ⟨a, ha, hr⟩
        exact ⟨a, List.mem_cons_of_mem _ ha, hr⟩

theorem forall₂_map_proj {α β γ : Type} {R : α → β → Prop} (g : α → γ) (h : β → γ) :
    ∀ {l₁ : List α} {l₂ : List β}, List.Forall₂ R l₁ l₂ →
      (∀ a b, R a b → g a = h b) → l₁.map g = l₂.map h
  | [], [], List.Forall₂.nil, _ => rfl
  | _ :: _, _ :: _, List.Forall₂.cons hh hs, hproj => by
      simp [hproj _ _ hh, forall₂_map_proj g h hs hproj]

theorem find_by_unique_key {α : Type} (key : α → Nat) :
    ∀ (l : List α) (a : α), a ∈ l → (l.map key).Nodup →
      l.find? (fun x => key x == key a) = some a := by
  intro l
  induction l with
  | nil => intro a ha; exact absurd ha (List.not_mem_nil a)
  | cons b l ih =>
      intro a ha hnd
      rw [List.map_cons, List.nodup_cons] at hnd
      rcases List.mem_cons.mp ha with rfl | ha
      · simp [List.find?]
      · have hne : (key b == key a) = false := by
          refine beq_eq_false_iff_ne.mpr ?_
          intro he
          exact hnd.1 (he ▸ List.mem_map_of_mem key ha)
        simp [List.find?, hne, ih a ha hnd.2]

/-! ### Closed forms for the simple cascade loops -/

/-- The contributor rows produced by the contributors loop, with
consecutive fresh ids starting at `start`. -/
def contribRowsFrom (repoId : Nat) : Nat → List String → List ContributorRow
  | _, [] => []
  | start, s :: ss => ⟨start, s, repoId⟩ :: contribRowsFrom repoId (start + 1) ss

/-- The branch rows produced by the branches loop, with consecutive fresh
ids starting at `start`. -/
def branchRowsFrom (repoId : Nat) : Nat → List BranchIn → List BranchRow
  | _, [] => []
  | start, b :: bs => ⟨start, b.name, b.type, repoId⟩ :: branchRowsFrom repoId (start + 1) bs

theorem saveRepoLangs_eq (repoId : Nat) :
    ∀ (ls : List String) (st : Store), saveRepoLangs repoId st ls =
      { st with repoLangs := st.repoLangs ++ ls.map (fun l => ⟨repoId, l⟩) } := by
  intro ls
  induction ls with
  | nil => intro st; simp [saveRepoLangs]
  | cons l ls ih =>
      intro st
      simp [saveRepoLangs, Store.saveRepoLang, ih]

theorem saveContributors_eq (repoId : Nat) :
    ∀ (ns : List String) (st : Store), saveContributors repoId st ns =
      (contribRowsFrom repoId st.nextId ns,
       { st with nextId := st.nextId + ns.length,
                 contributors := st.contributors ++ contribRowsFrom repoId st.nextId ns }) := by
  intro ns
  induction ns with
  | nil => intro st; simp [saveContributors, contribRowsFrom]
  | cons n ns ih =>
      intro st
      simp only [saveContributors, Store.saveContributor, ih, contribRowsFrom]
      refine Prod.ext rfl ?_
      simp
      omega

theorem saveBranches_eq (repoId : Nat) :
    ∀ (bs : List BranchIn) (st : Store), saveBranches repoId st bs =
      (branchRowsFrom repoId st.nextId bs,
       { st with nextId := st.nextId + bs.length,
                 branches := st.branches ++ branchRowsFrom repoId st.nextId bs }) := by
  intro bs
  induction bs with
  | nil => intro st; simp [saveBranches, branchRowsFrom]
  | cons b bs ih =>
      intro st
      simp only [saveBranches, Store.saveBranch, ih, branchRowsFrom]
      refine Prod.ext rfl ?_
      simp
      omega

theorem saveCommitBranches_eq (commitId : Nat) :
    ∀ (bs : List BranchRow) (st : Store), saveCommitBranches commitId st bs =
      { st with commitBranches :=
          st.commitBranches ++ bs.map (fun b => ⟨commitId, b.id⟩) } := by
  intro bs
  induction bs with
  | nil => intro st; simp [saveCommitBranches]
  | cons b bs ih =>
      intro st
      simp [saveCommitBranches, Store.saveCommitBranch, ih]

theorem contribRowsFrom_map_name (repoId : Nat) :
    ∀ (start : Nat) (ns : List String),
      (contribRowsFrom repoId start ns).map (fun r => r.name) = ns := by
  intro start ns
  induction ns generalizing start with
  | nil => rfl
  | cons n ns ih => simp [contribRowsFrom, ih]

theorem branchRowsFrom_map_name (repoId : Nat) :
    ∀ (start : Nat) (bs : List BranchIn),
      (branchRowsFrom repoId start bs).map (fun r => r.name) =
        bs.map (fun b => b.name) := by
  intro start bs
  induction bs generalizing start with
  | nil => rfl
  | cons b bs ih => simp [branchRowsFrom, ih]

theorem branchRowsFrom_id_bounds (repoId : Nat) :
    ∀ (start : Nat) (bs : List BranchIn) (r : BranchRow),
      r ∈ branchRowsFrom repoId start bs → start ≤ r.id ∧ r.id < start + bs.length := by
  intro start bs
  induction bs generalizing start with
  | nil => intro r hr; exact absurd hr (List.not_mem_nil r)
  | cons b bs ih =>
      intro r hr
      rcases List.mem_cons.mp hr with rfl | hr
      · refine ⟨Nat.le_refl _, ?_⟩
        simp only [List.length_cons]
        omega
      · have h2 := ih (start + 1) r hr
        simp only [List.length_cons]
        omega

theorem branchRowsFrom_ids_pairwise (repoId : Nat) :
    ∀ (start : Nat) (bs : List BranchIn),
      ((branchRowsFrom repoId start bs).map (fun r => r.id)).Pairwise (· < ·) := by
  intro start bs
  induction bs generalizing start with
  | nil => exact List.Pairwise.nil
  | cons b bs ih =>
      simp only [branchRowsFrom, List.map_cons, List.pairwise_cons]
      constructor
      · intro a ha
        rcases List.mem_map.mp ha with ⟨r, hr, rfl⟩
        have := branchRowsFrom_id_bounds repoId (start + 1) bs r hr
        omega
      · exact ih (start + 1)

/-! ### Characterization of the commits loop -/

theorem saveCommits_ok (repoId : Nat) (contribs : List ContributorRow)
    (bs : List BranchRow) :
    ∀ (cs : List CommitIn) (st : Store) (rows : List CommitRow) (st' : Store),
      saveCommits repoId contribs bs st cs = (.ok rows, st') →
      st'.repos = st.repos ∧ st'.repoLangs = st.repoLangs ∧
      st'.contributors = st.contributors ∧ st'.branches = st.branches ∧
      st'.files = st.files ∧ st'.modifications = st.modifications ∧
      st'.commits = st.commits ++ rows ∧
      st'.commitBranches = st.commitBranches ++
        (rows.zip cs).flatMap (fun p =>
          (bs.filter (fun b => p.2.branches.contains b.name)).map
            (fun b => ⟨p.1.id, b.id⟩)) ∧
      st.nextId ≤ st'.nextId ∧
      List.Forall₂ (fun (k : CommitRow) (c : CommitIn) =>
        k.hash = c.hash ∧ k.repo = repoId ∧
        ∃ ct ∈ contribs, ct.name = c.author ∧ k.author = ct.id) rows cs ∧
      (∀ k ∈ rows, st.nextId ≤ k.id ∧ k.id < st'.nextId) ∧
      ((rows.map (fun k => k.id)).Pairwise (· < ·)) := by
  intro cs
  induction cs with
  | nil =>
      intro st rows st' h
      simp only [saveCommits, Prod.mk.injEq, Except.ok.injEq] at h
      obtain ⟨rfl, rfl⟩ := h
      refine ⟨rfl, rfl, rfl, rfl, rfl, rfl, by simp, by simp, Nat.le_refl _,
        List.Forall₂.nil, ?_, List.Pairwise.nil⟩
      intro k hk
      exact absurd hk (List.not_mem_nil k)
  | cons c cs ih =>
      intro st rows st' h
      simp only [saveCommits] at h
      split at h
      · simp at h
      · rename_i ct heq
        split at h
        · rename_i rows' st3 heq2
          simp only [Prod.mk.injEq, Except.ok.injEq] at h
          obtain ⟨rfl, rfl⟩ := h
          rw [saveCommitBranches_eq] at heq2
          obtain ⟨h1, h2, h3, h4, h5, h6, h7, h8, h9, h10, h11, h12⟩ := ih _ _ _ heq2
          simp only [Store.saveCommit] at h1 h2 h3 h4 h5 h6 h7 h8 h9 h11
          refine ⟨h1, h2, h3, h4, h5, h6, ?_, ?_, ?_, ?_, ?_, ?_⟩
          · rw [h7]
            simp [Store.saveCommit]
          · rw [h8]
            simp [Store.saveCommit, List.append_assoc]
          · omega
          · refine List.Forall₂.cons ⟨rfl, rfl, ?_⟩ h10
            refine ⟨ct, List.mem_of_find?_eq_some heq, ?_, rfl⟩
            have := List.find?_some heq
            exact eq_of_beq this
          · intro k hk
            rcases List.mem_cons.mp hk with rfl | hk
            · simp only [Store.saveCommit]
              exact ⟨Nat.le_refl _, by omega⟩
            · have := h11 k hk
              omega
          · simp only [List.map_cons, List.pairwise_cons]
            refine ⟨?_, h12⟩
            intro a ha
            rcases List.mem_map.mp ha with ⟨k, hk, rfl⟩
            have := h11 k hk
            simp only [Store.saveCommit] at this ⊢
            omega
        · simp at h

/-! ### Characterization of the files loop and the reconciliation pass -/

theorem saveFileMods_ok (ks : List CommitRow) (fileId : Nat) :
    ∀ (ms : List ModIn) (st : Store) (u : Unit) (st' : Store),
      saveFileMods ks fileId st ms = (.ok u, st') →
      st'.nextId = st.nextId ∧ st'.repos = st.repos ∧ st'.repoLangs = st.repoLangs ∧
      st'.contributors = st.contributors ∧ st'.branches = st.branches ∧
      st'.commits = st.commits ∧ st'.files = st.files ∧
      st'.commitBranches = st.commitBranches ∧
      ∃ newMods, st'.modifications = st.modifications ++ newMods ∧
        List.Forall₂ (fun (r : ModRow) (m : ModIn) => r.type = m.type ∧ r.file = fileId ∧
          ∃ k ∈ ks, r.commit = k.id ∧ k.hash = m.commit) newMods ms := by
  intro ms
  induction ms with
  | nil =>
      intro st u st' h
      simp only [saveFileMods, Prod.mk.injEq] at h
      obtain ⟨-, rfl⟩ := h
      exact ⟨rfl, rfl, rfl, rfl, rfl, rfl, rfl, rfl, [], by simp, List.Forall₂.nil⟩
  | cons m ms ih =>
      intro st u st' h
      simp only [saveFileMods] at h
      split at h
      · simp at h
      · rename_i k heq
        obtain ⟨e1, e2, e3, e4, e5, e6, e7, e8, newMods, e9, e10⟩ := ih _ _ _ h
        simp only [Store.saveMod] at e1 e2 e3 e4 e5 e6 e7 e8 e9
        refine ⟨e1, e2, e3, e4, e5, e6, e7, e8, ⟨m.type, k.id, fileId⟩ :: newMods, ?_, ?_⟩
        · rw [e9]
          simp
        · refine List.Forall₂.cons ⟨rfl, rfl, ?_⟩ e10
          refine ⟨k, List.mem_of_find?_eq_some heq, rfl, ?_⟩
          have hb := List.find?_some heq
          exact eq_of_beq hb

theorem saveFiles_ok (repoId : Nat) (reg : String → Option Nat)
    (ks : List CommitRow) (mods : List ModIn) :
    ∀ (fs : List FileIn) (st : Store) (rows : List FileRow) (st' : Store),
      saveFiles repoId reg ks mods st fs = (.ok rows, st') →
      st'.repos = st.repos ∧ st'.repoLangs = st.repoLangs ∧
      st'.contributors = st.contributors ∧ st'.branches = st.branches ∧
      st'.commits = st.commits ∧ st'.commitBranches = st.commitBranches ∧
      st'.files = st.files ++ rows ∧
      st.nextId ≤ st'.nextId ∧
      List.Forall₂ (fun (row : FileRow) (f : FileIn) => row.name = f.name ∧
        row.size = f.size ∧ row.path = f.path ∧ row.repo = repoId ∧
        row.language = reg (extOf f.name)) rows fs ∧
      (∀ r ∈ rows, st.nextId ≤ r.id ∧ r.id < st'.nextId) ∧
      ((rows.map (fun r => r.id)).Pairwise (· < ·)) ∧
      ∃ newMods, st'.modifications = st.modifications ++ newMods ∧
        List.Forall₂ (fun (r : ModRow) (m : ModIn) => r.type = m.type ∧
            (∃ frow ∈ rows, r.file = frow.id ∧ frow.path = m.file) ∧
            ∃ k ∈ ks, r.commit = k.id ∧ k.hash = m.commit)
          newMods (fs.flatMap (fun f => mods.filter (fun m => m.file == f.path))) := by
  intro fs
  induction fs with
  | nil =>
      intro st rows st' h
      simp only [saveFiles, Prod.mk.injEq, Except.ok.injEq] at h
      obtain ⟨rfl, rfl⟩ := h
      refine ⟨rfl, rfl, rfl, rfl, rfl, rfl, by simp, Nat.le_refl _, List.Forall₂.nil,
        ?_, List.Pairwise.nil, [], by simp, by simp⟩
      intro r hr
      exact absurd hr (List.not_mem_nil r)
  | cons f fs ih =>
      intro st rows st' h
      simp only [saveFiles] at h
      split at h
      · simp at h
      · rename_i u st2 heqm
        split at h
        · rename_i rows' st3 heq2
          simp only [Prod.mk.injEq, Except.ok.injEq] at h
          obtain ⟨rfl, rfl⟩ := h
          obtain ⟨m1, m2, m3, m4, m5, m6, m7, m8, innerMods, m9, m10⟩ :=
            saveFileMods_ok ks _ _ _ _ _ heqm
          obtain ⟨h1, h2, h3, h4, h5, h6, h7, h8, h9, h10, h11, newMods', h12, h13⟩ :=
            ih _ _ _ heq2
          simp only [Store.saveFile] at m1 m2 m3 m4 m5 m6 m7 m8 m9
          refine ⟨by rw [h1, m2], by rw [h2, m3], by rw [h3, m4], by rw [h4, m5],
            by rw [h5, m6], by rw [h6, m8], ?_, ?_, ?_, ?_, ?_, ?_⟩
          · rw [h7, m7]
            simp [Store.saveFile, List.append_assoc]
          · rw [m1] at h8
            omega
          · refine List.Forall₂.cons ⟨rfl, rfl, rfl, rfl, rfl⟩ h9
          · intro r hr
            rcases List.mem_cons.mp hr with rfl | hr
            · simp only [Store.saveFile]
              rw [m1] at h8
              exact ⟨Nat.le_refl _, by omega⟩
            · have := h10 r hr
              rw [m1] at this
              omega
          · simp only [List.map_cons, List.pairwise_cons]
            refine ⟨?_, h11⟩
            intro a ha
            rcases List.mem_map.mp ha with ⟨r, hr, rfl⟩
            have := h10 r hr
            rw [m1] at this
            simp only [Store.saveFile]
            omega
          · refine ⟨innerMods ++ newMods', ?_, ?_⟩
            · rw [h12, m9]
              simp [List.append_assoc]
            · simp only [List.flatMap_cons]
              refine List.rel_append ?_ ?_
              · refine forall₂_imp_mem m10 ?_
                intro r m _ hm hr
                refine ⟨hr.1, ?_, hr.2.2⟩
                refine ⟨(Store.saveFile st f.name f.size f.path repoId
                  (reg (extOf f.name))).1, List.mem_cons_self _ _, hr.2.1, ?_⟩
                have : m.file = f.path := eq_of_beq (List.mem_filter.mp hm).2
                simp only [Store.saveFile]
                exact this.symm
              · refine List.Forall₂.imp ?_ h13
                intro r m hr
                refine ⟨hr.1, ?_, hr.2.2⟩
                obtain ⟨frow, hfrow, he⟩ := hr.2.1
                exact ⟨frow, List.mem_cons_of_mem _ hfrow, he⟩
        · simp at h

theorem saveDeleted_ok (repoId : Nat) (ks : List CommitRow) :
    ∀ (dms : List ModIn) (st : Store) (u : Unit) (st' : Store),
      saveDeleted repoId ks st dms = (.ok u, st') →
      st'.repos = st.repos ∧ st'.repoLangs = st.repoLangs ∧
      st'.contributors = st.contributors ∧ st'.branches = st.branches ∧
      st'.commits = st.commits ∧ st'.commitBranches = st.commitBranches ∧
      st.nextId ≤ st'.nextId ∧
      ∃ (pRows : List FileRow) (newMods : List ModRow),
        st'.files = st.files ++ pRows ∧
        st'.modifications = st.modifications ++ newMods ∧
        pRows.length = dms.length ∧
        newMods.length = dms.length ∧
        (∀ r ∈ pRows, st.nextId ≤ r.id ∧ r.id < st'.nextId) ∧
        ((pRows.map (fun r => r.id)).Pairwise (· < ·)) ∧
        List.Forall₂ (fun (p : FileRow × ModRow) (m : ModIn) =>
            p.1.name = baseNameOf m.file ∧ p.1.size = "N/A" ∧ p.1.path = m.file ∧
            p.1.repo = repoId ∧ p.1.language = none ∧
            p.2.type = m.type ∧ p.2.file = p.1.id ∧
            ∃ k ∈ ks, p.2.commit = k.id ∧ k.hash = m.commit)
          (pRows.zip newMods) dms := by
  intro dms
  induction dms with
  | nil =>
      intro st u st' h
      simp only [saveDeleted, Prod.mk.injEq] at h
      obtain ⟨-, rfl⟩ := h
      refine ⟨rfl, rfl, rfl, rfl, rfl, rfl, Nat.le_refl _, [], [], by simp, by simp,
        rfl, rfl, ?_, List.Pairwise.nil, List.Forall₂.nil⟩
      intro r hr
      exact absurd hr (List.not_mem_nil r)
  | cons m dms ih =>
      intro st u st' h
      simp only [saveDeleted] at h
      split at h
      · simp at h
      · rename_i k heq
        obtain ⟨h1, h2, h3, h4, h5, h6, h7, pRows', newMods', h8, h9, h10, h10b, h11, h12, h13⟩ :=
          ih _ _ _ h
        simp only [Store.saveMod, Store.saveFile] at h1 h2 h3 h4 h5 h6 h7 h8 h9 h11
        refine ⟨h1, h2, h3, h4, h5, h6, by omega,
          ⟨st.nextId, baseNameOf m.file, "N/A", m.file, repoId, none⟩ :: pRows',
          ⟨m.type, k.id, st.nextId⟩ :: newMods', ?_, ?_, by simp [h10], by simp [h10b], ?_, ?_, ?_⟩
        · rw [h8]
          simp
        · rw [h9]
          simp
        · intro r hr
          rcases List.mem_cons.mp hr with rfl | hr
          · refine ⟨Nat.le_refl _, ?_⟩
            show st.nextId < st'.nextId
            omega
          · have := h11 r hr
            omega
        · simp only [List.map_cons, List.pairwise_cons]
          refine ⟨?_, h12⟩
          intro a ha
          rcases List.mem_map.mp ha with ⟨r, hr, rfl⟩
          have := h11 r hr
          omega
        · simp only [List.zip_cons_cons]
          refine List.Forall₂.cons ⟨rfl, rfl, rfl, rfl, rfl, rfl, rfl, ?_⟩ h13
          refine ⟨k, List.mem_of_find?_eq_some heq, rfl, ?_⟩
          have hb := List.find?_some heq
          exact eq_of_beq hb

/-! ### The repos table is only written by step 1 -/

theorem saveCommits_snd_repos (repoId : Nat) (contribs : List ContributorRow)
    (bs : List BranchRow) :
    ∀ (cs : List CommitIn) (st : Store),
      ((saveCommits repoId contribs bs st cs).2).repos = st.repos := by
  intro cs
  induction cs with
  | nil => intro st; rfl
  | cons c cs ih =>
      intro st
      simp only [saveCommits]
      split
      · rfl
      · rename_i ct heq
        split
        · rename_i rows st3 heq2
          have h := congrArg (fun p => p.2.repos) heq2
          simp only [] at h
          rw [ih] at h
          simpa [saveCommitBranches_eq, Store.saveCommit] using h.symm
        · rename_i m st3 heq2
          have h := congrArg (fun p => p.2.repos) heq2
          simp only [] at h
          rw [ih] at h
          simpa [saveCommitBranches_eq, Store.saveCommit] using h.symm

theorem saveFileMods_snd_repos (ks : List CommitRow) (fileId : Nat) :
    ∀ (ms : List ModIn) (st : Store),
      ((saveFileMods ks fileId st ms).2).repos = st.repos := by
  intro ms
  induction ms with
  | nil => intro st; rfl
  | cons m ms ih =>
      intro st
      simp only [saveFileMods]
      split
      · rfl
      · rename_i k heq
        exact ih _

theorem saveFiles_snd_repos (repoId : Nat) (reg : String → Option Nat)
    (ks : List CommitRow) (mods : List ModIn) :
    ∀ (fs : List FileIn) (st : Store),
      ((saveFiles repoId reg ks mods st fs).2).repos = st.repos := by
  intro fs
  induction fs with
  | nil => intro st; rfl
  | cons f fs ih =>
      intro st
      simp only [saveFiles]
      split
      · rename_i m st2 heqm
        have hm := congrArg (fun p => p.2.repos) heqm
        simp only [] at hm
        rw [saveFileMods_snd_repos] at hm
        simpa [Store.saveFile] using hm.symm
      · rename_i u st2 heqm
        have hm := congrArg (fun p => p.2.repos) heqm
        simp only [] at hm
        rw [saveFileMods_snd_repos] at hm
        simp only [Store.saveFile] at hm
        split
        · rename_i rows st3 heq2
          have h := congrArg (fun p => p.2.repos) heq2
          simp only [] at h
          rw [ih] at h
          simp only [] at hm ⊢
          rw [← h, hm]
        · rename_i m2 st3 heq2
          have h := congrArg (fun p => p.2.repos) heq2
          simp only [] at h
          rw [ih] at h
          simp only [] at hm ⊢
          rw [← h, hm]

theorem saveDeleted_snd_repos (repoId : Nat) (ks : List CommitRow) :
    ∀ (dms : List ModIn) (st : Store),
      ((saveDeleted repoId ks st dms).2).repos = st.repos := by
  intro dms
  induction dms with
  | nil => intro st; rfl
  | cons m dms ih =>
      intro st
      simp only [saveDeleted]
      split
      · rfl
      · rename_i k heq
        exact ih _

/-! ### More generic helpers -/

theorem forall₂_mem_left {α β : Type} {R : α → β → Prop} :
    ∀ {l₁ : List α} {l₂ : List β}, List.Forall₂ R l₁ l₂ →
      ∀ {a}, a ∈ l₁ → ∃ b ∈ l₂, R a b
  | _, _, List.Forall₂.cons h hs, a, ha => by
      rcases List.mem_cons.mp ha with hb | hb
      · exact ⟨_, List.mem_cons_self _ _, hb ▸ h⟩
      · rcases forall₂_mem_left hs hb with ⟨b, hbm, hr⟩
        exact ⟨b, List.mem_cons_of_mem _ hbm, hr⟩

theorem mem_zip_left_of_mem {α β : Type} :
    ∀ {l₁ : List α} {l₂ : List β}, l₁.length = l₂.length →
      ∀ {a}, a ∈ l₁ → ∃ b, (a, b) ∈ l₁.zip l₂ := by
  intro l₁
  induction l₁ with
  | nil => intro l₂ _ a ha; exact absurd ha (List.not_mem_nil a)
  | cons x xs ih =>
      intro l₂ hlen a ha
      cases l₂ with
      | nil => simp at hlen
      | cons y ys =>
          rcases List.mem_cons.mp ha with rfl | ha
          · exact ⟨y, List.mem_cons_self _ _⟩
          · simp only [List.length_cons, Nat.succ.injEq] at hlen
            rcases ih hlen ha with ⟨b, hb⟩
            exact ⟨b, List.mem_cons_of_mem _ hb⟩

theorem nodup_of_pairwise_lt {l : List Nat} (h : l.Pairwise (· < ·)) : l.Nodup :=
  h.imp (fun hlt => Nat.ne_of_lt hlt)

theorem any_eq_of_map_proj {α β : Type} (g : α → String) (h2 : β → String)
    (q : String → Bool) :
    ∀ {l₁ : List α} {l₂ : List β}, l₁.map g = l₂.map h2 →
      l₁.any (fun x => q (g x)) = l₂.any (fun x => q (h2 x)) := by
  intro l₁
  induction l₁ with
  | nil =>
      intro l₂ he
      cases l₂ with
      | nil => rfl
      | cons y ys => simp at he
  | cons x xs ih =>
      intro l₂ he
      cases l₂ with
      | nil => simp at he
      | cons y ys =>
          simp only [List.map_cons, List.cons.injEq] at he
          simp only [List.any_cons, he.1, ih he.2]

/-! ### Structure of the final store of a successful ingestion -/

theorem run_success_spec (ctx : Ctx) (name description : String)
    (languages : List String) (st' : Store)
    (h : createRepository ctx name description languages Store.empty =
      (.success, st')) :
    ∃ (repoRow : RepoRow) (bs : List BranchRow) (ks : List CommitRow)
      (frows pRows : List FileRow) (mods6 mods8 : List ModRow),
      st'.repos = [repoRow] ∧
      st'.branches = bs ∧
      st'.commits = ks ∧
      st'.files = frows ++ pRows ∧
      st'.modifications = mods6 ++ mods8 ∧
      st'.commitBranches = (ks.zip ctx.info.commits).flatMap (fun p =>
        (bs.filter (fun b => p.2.branches.contains b.name)).map
          (fun b => (⟨p.1.id, b.id⟩ : CommitBranchRow))) ∧
      bs.map (fun b => b.name) = ctx.info.branches.map (fun b => b.name) ∧
      (bs.map (fun b => b.id)).Nodup ∧
      (ks.map (fun k => k.id)).Nodup ∧
      (((frows ++ pRows).map (fun r => r.id)).Nodup) ∧
      List.Forall₂ (fun (k : CommitRow) (c : CommitIn) =>
        k.hash = c.hash ∧ k.repo = repoRow.id) ks ctx.info.commits ∧
      List.Forall₂ (fun (row : FileRow) (f : FileIn) => row.name = f.name ∧
        row.size = f.size ∧ row.path = f.path ∧ row.repo = repoRow.id ∧
        row.language = ctx.getByExt (extOf f.name)) frows ctx.info.files ∧
      List.Forall₂ (fun (r : ModRow) (m : ModIn) => r.type = m.type ∧
          (∃ frow ∈ frows, r.file = frow.id ∧ frow.path = m.file) ∧
          (∃ k ∈ ks, r.commit = k.id ∧ k.hash = m.commit))
        mods6 (ctx.info.files.flatMap (fun f =>
          ctx.info.modifications.filter (fun m => m.file == f.path))) ∧
      pRows.length = mods8.length ∧
      List.Forall₂ (fun (p : FileRow × ModRow) (m : ModIn) =>
          p.1.name = baseNameOf m.file ∧ p.1.size = "N/A" ∧ p.1.path = m.file ∧
          p.1.repo = repoRow.id ∧ p.1.language = none ∧
          p.2.type = m.type ∧ p.2.file = p.1.id ∧
          (∃ k ∈ ks, p.2.commit = k.id ∧ k.hash = m.commit))
        (pRows.zip mods8)
        (ctx.info.modifications.filter
          (fun m => !(frows.any (fun f => f.path == m.file)))) := by
  simp only [createRepository] at h
  split at h
  · simp at h
  · rename_i actor hval
    split at h
    · simp at h
    · split at h
      · simp at h
      · split at h
        · simp at h
        · split at h
          · simp at h
          · rename_i ks st5 heqc
            split at h
            · simp at h
            · rename_i frows st6 heqf
              split at h
              · simp at h
              · rename_i u st7 heqd
                simp only [Prod.mk.injEq] at h
                obtain ⟨-, rfl⟩ := h
                obtain ⟨c1, c2, c3, c4, c5, c6, c7, c8, c9, c10, c11, c12⟩ :=
                  saveCommits_ok _ _ _ _ _ _ _ heqc
                obtain ⟨f1, f2, f3, f4, f5, f6, f7, f8, f9, f10, f11,
                  mods6, f12, f13⟩ := saveFiles_ok _ _ _ _ _ _ _ _ heqf
                obtain ⟨d1, d2, d3, d4, d5, d6, d7, pRows, mods8,
                  d8, d9, d10, d10b, d11, d12, d13⟩ := saveDeleted_ok _ _ _ _ _ _ heqd
                simp only [saveBranches_eq, saveContributors_eq, saveRepoLangs_eq,
                  Store.saveRepo, Store.empty] at c1 c2 c3 c4 c5 c6 c7 c8 c9 c10 c11 heqc
                refine ⟨⟨0, name, description, actor⟩,
                  branchRowsFrom 0 (1 + ctx.info.contributors.length)
                    ctx.info.branches, ks, frows, pRows, mods6, mods8,
                  ?_, ?_, ?_, ?_, ?_, ?_, ?_, ?_, ?_, ?_, ?_, ?_, ?_, ?_, ?_⟩
                · rw [d1, f1, c1]
                  simp
                · rw [d4, f4, c4]
                  simp
                · rw [d5, f5, c7]
                  simp
                · rw [d8, f7, c5]
                  simp
                · rw [d9, f12, c6]
                  simp
                · rw [d6, f6, c8]
                  simp
                · exact branchRowsFrom_map_name _ _ _
                · exact nodup_of_pairwise_lt (branchRowsFrom_ids_pairwise _ _ _)
                · exact nodup_of_pairwise_lt c12
                · refine nodup_of_pairwise_lt ?_
                  rw [List.map_append]
                  rw [List.pairwise_append]
                  refine ⟨f11, d12, ?_⟩
                  intro a ha b hb
                  rcases List.mem_map.mp ha with ⟨r, hr, rfl⟩
                  rcases List.mem_map.mp hb with ⟨r2, hr2, rfl⟩
                  have hf := f10 r hr
                  have hd := d11 r2 hr2
                  omega
                · exact c10.imp (fun a b hk => ⟨hk.1, hk.2.1⟩)
                · exact f9
                · exact f13
                · have hlen : (pRows.zip mods8).length =
                      (ctx.info.modifications.filter
                        (fun m => !(frows.any (fun f => f.path == m.file)))).length :=
                    d13.length_eq
                  rw [List.length_zip] at hlen
                  omega
                · exact d13

/-! ### A mid-cascade fault leaves the step-1 repository row persisted -/

theorem run_fault_repos (ctx : Ctx) (name description : String)
    (languages : List String) (st st' : Store) (m : String)
    (h : createRepository ctx name description languages st = (.fault m, st')) :
    st'.repos.length = st.repos.length + 1 := by
  simp only [createRepository] at h
  split at h
  · simp at h
  · rename_i actor
    split at h
    · simp at h
    · split at h
      · simp at h
      · split at h
        · simp at h
        · split at h
          · rename_i m2 st5 heqc
            simp only [Prod.mk.injEq] at h
            obtain ⟨-, rfl⟩ := h
            have hc := congrArg (fun p => p.2.repos) heqc
            simp only [] at hc
            rw [saveCommits_snd_repos] at hc
            simp only [saveBranches_eq, saveContributors_eq, saveRepoLangs_eq,
              Store.saveRepo] at hc
            rw [← hc]
            simp
          · rename_i ks st5 heqc
            have hc := congrArg (fun p => p.2.repos) heqc
            simp only [] at hc
            rw [saveCommits_snd_repos] at hc
            simp only [saveBranches_eq, saveContributors_eq, saveRepoLangs_eq,
              Store.saveRepo] at hc
            split at h
            · rename_i m2 st6 heqf
              simp only [Prod.mk.injEq] at h
              obtain ⟨-, rfl⟩ := h
              have hf := congrArg (fun p => p.2.repos) heqf
              simp only [] at hf
              rw [saveFiles_snd_repos] at hf
              rw [← hf, ← hc]
              simp
            · rename_i frows st6 heqf
              have hf := congrArg (fun p => p.2.repos) heqf
              simp only [] at hf
              rw [saveFiles_snd_repos] at hf
              split at h
              · rename_i m2 st7 heqd
                simp only [Prod.mk.injEq] at h
                obtain ⟨-, rfl⟩ := h
                have hd := congrArg (fun p => p.2.repos) heqd
                simp only [] at hd
                rw [saveDeleted_snd_repos] at hd
                rw [← hd, ← hf, ← hc]
                simp
              · simp at h

/-! ### Combinatorial lemmas for the join rows and the modification partition -/

theorem flatMap_congr_mem {α β : Type} {l : List α} {f g : α → List β}
    (h : ∀ a ∈ l, f a = g a) : l.flatMap f = l.flatMap g := by
  induction l with
  | nil => rfl
  | cons x xs ih =>
      simp only [List.flatMap_cons]
      rw [h x (List.mem_cons_self x xs), ih (fun a ha => h a (List.mem_cons_of_mem _ ha))]

theorem mem_zip_right_of_mem {α β : Type} :
    ∀ {l₁ : List α} {l₂ : List β}, l₁.length = l₂.length →
      ∀ {b}, b ∈ l₂ → ∃ a, (a, b) ∈ l₁.zip l₂ := by
  intro l₁
  induction l₁ with
  | nil =>
      intro l₂ hlen b hb
      cases l₂ with
      | nil => exact absurd hb (List.not_mem_nil b)
      | cons y ys => simp at hlen
  | cons x xs ih =>
      intro l₂ hlen b hb
      cases l₂ with
      | nil => simp at hb
      | cons y ys =>
          rcases List.mem_cons.mp hb with rfl | hb
          · exact ⟨x, List.mem_cons_self _ _⟩
          · simp only [List.length_cons, Nat.succ.injEq] at hlen
            rcases ih hlen hb with ⟨a, ha⟩
            exact ⟨a, List.mem_cons_of_mem _ ha⟩

theorem cb_filter_eq (bs : List BranchRow) :
    ∀ (pairs : List (CommitRow × CommitIn)),
      ((pairs.map (fun p => p.1.id)).Nodup) →
      ∀ (k : CommitRow) (c : CommitIn), (k, c) ∈ pairs →
      (pairs.flatMap (fun p =>
        (bs.filter (fun b => p.2.branches.contains b.name)).map
          (fun b => (⟨p.1.id, b.id⟩ : CommitBranchRow)))).filter
            (fun r => r.commit == k.id) =
      (bs.filter (fun b => c.branches.contains b.name)).map
        (fun b => (⟨k.id, b.id⟩ : CommitBranchRow)) := by
  intro pairs
  induction pairs with
  | nil =>
      intro _ k c hm
      exact absurd hm (List.not_mem_nil _)
  | cons p0 ps ih =>
      intro hnd k c hm
      rw [List.map_cons, List.nodup_cons] at hnd
      simp only [List.flatMap_cons, List.filter_append]
      rcases List.mem_cons.mp hm with heq | hm
      · subst heq
        have hpart : ((bs.filter (fun b => c.branches.contains b.name)).map
            (fun b => ((⟨k.id, b.id⟩ : CommitBranchRow)))).filter
              (fun r => r.commit == k.id) =
            (bs.filter (fun b => c.branches.contains b.name)).map
              (fun b => (⟨k.id, b.id⟩ : CommitBranchRow)) := by
          refine List.filter_eq_self.mpr ?_
          intro r hr
          rcases List.mem_map.mp hr with ⟨b, hb, rfl⟩
          simp
        have hrest : (ps.flatMap (fun p =>
            (bs.filter (fun b => p.2.branches.contains b.name)).map
              (fun b => (⟨p.1.id, b.id⟩ : CommitBranchRow)))).filter
                (fun r => r.commit == k.id) = [] := by
          refine List.filter_eq_nil_iff.mpr ?_
          intro r hr
          rcases List.mem_flatMap.mp hr with ⟨p, hp, hrp⟩
          rcases List.mem_map.mp hrp with ⟨b, hb, rfl⟩
          simp only [beq_iff_eq]
          intro hh
          exact hnd.1 (hh ▸ List.mem_map_of_mem (fun p => p.1.id) hp)
        rw [hpart, hrest, List.append_nil]
      · have hkid : k.id ∈ ps.map (fun p => p.1.id) := by
          have := List.mem_map_of_mem (fun p => p.1.id) hm
          simpa using this
        have hpart : ((bs.filter (fun b => p0.2.branches.contains b.name)).map
            (fun b => ((⟨p0.1.id, b.id⟩ : CommitBranchRow)))).filter
              (fun r => r.commit == k.id) = [] := by
          refine List.filter_eq_nil_iff.mpr ?_
          intro r hr
          rcases List.mem_map.mp hr with ⟨b, hb, rfl⟩
          simp only [beq_iff_eq]
          intro hh
          exact hnd.1 (hh ▸ hkid)
        rw [hpart, ih hnd.2 k c hm, List.nil_append]

theorem partition_perm :
    ∀ (fs : List FileIn) (mods : List ModIn),
      ((fs.map (fun f => f.path)).Nodup) →
      List.Perm
        ((fs.flatMap (fun f => mods.filter (fun m => m.file == f.path))) ++
          mods.filter (fun m => !(fs.any (fun f => f.path == m.file))))
        mods := by
  intro fs
  induction fs with
  | nil =>
      intro mods _
      simp
  | cons f fs ih =>
      intro mods hnd
      rw [List.map_cons, List.nodup_cons] at hnd
      have hgroups : fs.flatMap (fun f2 => mods.filter (fun m => m.file == f2.path)) =
          fs.flatMap (fun f2 => (mods.filter (fun m => !(m.file == f.path))).filter
            (fun m => m.file == f2.path)) := by
        refine flatMap_congr_mem ?_
        intro f2 hf2
        rw [List.filter_filter]
        refine List.filter_congr ?_
        intro m hm
        have hne : f2.path ≠ f.path := by
          intro he
          exact hnd.1 (he ▸ List.mem_map_of_mem (fun x => x.path) hf2)
        by_cases hb : m.file = f2.path
        · simp [hb, hne]
        · simp [hb]
      have horphan : mods.filter
            (fun m => !((f :: fs).any (fun f2 => f2.path == m.file))) =
          (mods.filter (fun m => !(m.file == f.path))).filter
            (fun m => !(fs.any (fun f2 => f2.path == m.file))) := by
        rw [List.filter_filter]
        refine List.filter_congr ?_
        intro m hm
        by_cases hb : m.file = f.path
        · simp [List.any_cons, hb]
        · have hb2 : ¬(f.path = m.file) := fun he => hb he.symm
          have e1 : (f.path == m.file) = false := beq_eq_false_iff_ne.mpr hb2
          have e2 : (m.file == f.path) = false := beq_eq_false_iff_ne.mpr hb
          simp [List.any_cons, e1, e2, Bool.and_comm]
      rw [List.flatMap_cons, hgroups, horphan, List.append_assoc]
      refine List.Perm.trans (List.Perm.append_left _ (ih _ hnd.2)) ?_
      exact List.filter_append_perm _ mods

/-! ### Claim theorems -/

/-- Claim C1 (counterexample): at a concrete input with two modifications
referencing the same orphaned path "old/util.py", the ingestion succeeds
but persists two placeholder Files for that one distinct path, so it is
false that exactly one placeholder File is created per distinct orphaned
path. -/
theorem c1_counterexample :
    (createRepository ctxOrphanDup "demo" "d" [] Store.empty).1 = RunResult.success ∧
    ((createRepository ctxOrphanDup "demo" "d" [] Store.empty).2.files.filter
      (fun f => f.path == "old/util.py")).length = 2 := by
  decide

/-- Claim C1 (amended): in every successful ingestion the reconciliation
pass creates one placeholder File per orphaned modification, so the number
of persisted Files equals the number of extracted files plus the number of
orphaned modifications (not the number of distinct orphaned paths). -/
theorem c1_amended_placeholder_per_modification (ctx : Ctx)
    (name description : String) (languages : List String) (st' : Store)
    (h : createRepository ctx name description languages Store.empty =
      (.success, st')) :
    st'.files.length = ctx.info.files.length +
      (ctx.info.modifications.filter
        (fun m => !(ctx.info.files.any (fun f => f.path == m.file)))).length := by
  obtain ⟨repoRow, bs, ks, frows, pRows, mods6, mods8, a1, a2, a3, a4, a5, a6, a7,
    a8, a9, a10, a11, a12, a13, a14, a15⟩ :=
    run_success_spec ctx name description languages st' h
  have hpaths : frows.map (fun f => f.path) =
      ctx.info.files.map (fun f => f.path) :=
    forall₂_map_proj _ _ a12 (fun a b hr => hr.2.2.1)
  have hany : ∀ m : ModIn, (frows.any (fun f => f.path == m.file)) =
      (ctx.info.files.any (fun f => f.path == m.file)) := by
    intro m
    exact any_eq_of_map_proj (fun f : FileRow => f.path) (fun f : FileIn => f.path)
      (fun s => s == m.file) hpaths
  have hdms : ctx.info.modifications.filter
        (fun m => !(frows.any (fun f => f.path == m.file))) =
      ctx.info.modifications.filter
        (fun m => !(ctx.info.files.any (fun f => f.path == m.file))) := by
    refine List.filter_congr ?_
    intro m hm
    rw [hany m]
  have hzlen := a15.length_eq
  rw [List.length_zip] at hzlen
  rw [a4, List.length_append, a12.length_eq, ← hdms]
  omega

/-- Claim C1 (amended, witness): at the concrete two-orphaned-modification
context the successful ingestion persists 0 + 2 files. -/
theorem c1_amended_witness :
    (createRepository ctxOrphanDup "demo" "d" [] Store.empty).2.files.length =
      ctxOrphanDup.info.files.length +
      (ctxOrphanDup.info.modifications.filter
        (fun m => !(ctxOrphanDup.info.files.any (fun f => f.path == m.file)))).length :=
  c1_amended_placeholder_per_modification ctxOrphanDup "demo" "d" []
    (createRepository ctxOrphanDup "demo" "d" [] Store.empty).2 rfl

/-- Claim C2 (code bug): at a concrete input whose commit author "bob" has
no exact match among the created contributors, createRepository ends in
the unhandled TypeError fault (the dereference of a failed find), not in a
tagged NOT_FOUND error naming the author, and the offending commit is not
persisted. -/
theorem c2_unknown_author_faults :
    (createRepository ctxUnknownAuthor "demo" "d" [] Store.empty).1 =
      RunResult.fault faultMsg ∧
    (createRepository ctxUnknownAuthor "demo" "d" [] Store.empty).2.commits = [] := by
  decide

/-- Claim C3 (counterexample): at a concrete input whose cascade faults at
step 5 (unknown author), the Repository row written at step 1 is still
persisted afterwards, so the cascade is not rolled back atomically. -/
theorem c3_counterexample :
    (createRepository ctxUnknownAuthor "demo" "d" [] Store.empty).1 =
      RunResult.fault faultMsg ∧
    (createRepository ctxUnknownAuthor "demo" "d" [] Store.empty).2.repos.length = 1 := by
  decide

/-- Claim C3 (amended): when any cascade step after the Repository
creation faults, no rollback happens: the Repository row created at step 1
remains persisted in the resulting store. -/
theorem c3_amended_no_rollback (ctx : Ctx) (name description : String)
    (languages : List String) (st st' : Store) (m : String)
    (h : createRepository ctx name description languages st = (.fault m, st')) :
    st'.repos.length = st.repos.length + 1 :=
  run_fault_repos ctx name description languages st st' m h

/-- Claim C3 (amended, witness): the concrete faulting ingestion leaves
exactly the one repository row written before the fault. -/
theorem c3_amended_witness :
    (createRepository ctxUnknownAuthor "demo" "d" [] Store.empty).2.repos.length =
      Store.empty.repos.length + 1 :=
  c3_amended_no_rollback ctxUnknownAuthor "demo" "d" [] Store.empty
    (createRepository ctxUnknownAuthor "demo" "d" [] Store.empty).2 faultMsg rfl

/-- Claim C4 (counterexample): at a concrete input where the actor already
owns the repository, createRepository returns a BAD_REQUEST-tagged error,
and BAD_REQUEST is not the CONFLICT tag, so the operation does not return
a CONFLICT-class error. -/
theorem c4_counterexample :
    createRepository ctxDupOwner "demo" "d" [] Store.empty =
      (RunResult.err "Usuario ya tiene el repositorio!" ErrType.BAD_REQUEST,
        Store.empty) ∧
    ErrType.BAD_REQUEST ≠ ErrType.CONFLICT := by
  decide

/-- Claim C4 (amended): whenever validation succeeds, the repository
exists in the backend and the actor already owns a repository of the given
name, createRepository returns the BAD_REQUEST-tagged duplicate-ownership
error and performs no store write (the store is returned unchanged). -/
theorem c4_amended_bad_request (ctx : Ctx) (name description : String)
    (languages : List String) (st : Store) (actor : Nat)
    (hv : ctx.validation = .ok actor) (hb : ctx.existsBackend = true)
    (hr : ctx.userHasRepo = true) :
    createRepository ctx name description languages st =
      (.err "Usuario ya tiene el repositorio!" .BAD_REQUEST, st) := by
  simp [createRepository, hv, hb, hr]

/-- Claim C4 (amended, witness): the duplicate-ownership context returns
the BAD_REQUEST error with the store untouched. -/
theorem c4_amended_witness :
    createRepository ctxDupOwner "demo" "d" [] Store.empty =
      (RunResult.err "Usuario ya tiene el repositorio!" ErrType.BAD_REQUEST,
        Store.empty) :=
  c4_amended_bad_request ctxDupOwner "demo" "d" [] Store.empty 1 rfl rfl rfl

/-- Claim C8: when validation succeeds, the repository exists upstream,
the actor does not already own it, and the scan of the declared languages
finds one missing from the registry, createRepository returns a NOT_FOUND
error whose message names that offending language and the store is
returned unchanged (no write has occurred). -/
theorem c8_missing_language_not_found (ctx : Ctx) (name description : String)
    (languages : List String) (st : Store) (actor : Nat) (l : String)
    (hv : ctx.validation = .ok actor) (hb : ctx.existsBackend = true)
    (hr : ctx.userHasRepo = false)
    (hfind : languages.find? (fun x => !(ctx.langExists x)) = some l) :
    l ∈ languages ∧ ctx.langExists l = false ∧
    createRepository ctx name description languages st =
      (.err ("Lenguaje " ++ l ++ " no existe en la base de datos!") .NOT_FOUND, st) := by
  refine ⟨List.mem_of_find?_eq_some hfind, ?_, ?_⟩
  · have := List.find?_some hfind
    simpa using this
  · simp [createRepository, hv, hb, hr, hfind]

/-- Claim C8 (witness): with the registry knowing only "js", declaring
["js", "cobol"] yields the NOT_FOUND error naming "cobol" and no store
write. -/
theorem c8_witness :
    "cobol" ∈ ["js", "cobol"] ∧ ctxMissingLang.langExists "cobol" = false ∧
    createRepository ctxMissingLang "demo" "d" ["js", "cobol"] Store.empty =
      (RunResult.err ("Lenguaje " ++ "cobol" ++ " no existe en la base de datos!")
        ErrType.NOT_FOUND, Store.empty) :=
  c8_missing_language_not_found ctxMissingLang "demo" "d" ["js", "cobol"]
    Store.empty 1 "cobol" rfl rfl rfl (by decide)

/-- Claim C6: in every successful ingestion from an empty store, every
persisted Modification references a File that exists in the persisted File
set of the one created repository, and a Commit of that same repository. -/
theorem c6_no_dangling_references (ctx : Ctx) (name description : String)
    (languages : List String) (st' : Store)
    (h : createRepository ctx name description languages Store.empty =
      (.success, st')) :
    ∃ rp : RepoRow, st'.repos = [rp] ∧
      ∀ r ∈ st'.modifications,
        (∃ f ∈ st'.files, r.file = f.id ∧ f.repo = rp.id) ∧
        (∃ k ∈ st'.commits, r.commit = k.id ∧ k.repo = rp.id) := by
  obtain ⟨repoRow, bs, ks, frows, pRows, mods6, mods8, a1, a2, a3, a4, a5, a6, a7,
    a8, a9, a10, a11, a12, a13, a14, a15⟩ :=
    run_success_spec ctx name description languages st' h
  refine ⟨repoRow, a1, ?_⟩
  intro r hr
  rw [a5] at hr
  rcases List.mem_append.mp hr with hr6 | hr8
  · obtain ⟨m, hm, hrel⟩ := forall₂_mem_left a13 hr6
    obtain ⟨frow, hfrow, hrfile, hfp⟩ := hrel.2.1
    obtain ⟨k, hk, hrc, hkh⟩ := hrel.2.2
    constructor
    · refine ⟨frow, ?_, hrfile, ?_⟩
      · rw [a4]
        exact List.mem_append_left _ hfrow
      · obtain ⟨fin, hfin, hshape⟩ := forall₂_mem_left a12 hfrow
        exact hshape.2.2.2.1
    · refine ⟨k, ?_, hrc, ?_⟩
      · rw [a3]
        exact hk
      · obtain ⟨c, hc, hck⟩ := forall₂_mem_left a11 hk
        exact hck.2
  · obtain ⟨prow, hzip⟩ := mem_zip_right_of_mem a14 hr8
    obtain ⟨m, hm, hrel⟩ := forall₂_mem_left a15 hzip
    obtain ⟨hn, hs, hp, hrepo, hlang, htype, hfile, k, hk, hrc, hkh⟩ := hrel
    constructor
    · refine ⟨prow, ?_, hfile, hrepo⟩
      rw [a4]
      exact List.mem_append_right _ (List.of_mem_zip hzip).1
    · refine ⟨k, ?_, hrc, ?_⟩
      · rw [a3]
        exact hk
      · obtain ⟨c, hc, hck⟩ := forall₂_mem_left a11 hk
        exact hck.2

/-- Claim C6 (witness): the demo import has no dangling modification
references. -/
theorem c6_witness :
    ∃ rp : RepoRow,
      (createRepository ctxDemo "demo" "d" ["js"] Store.empty).2.repos = [rp] ∧
      ∀ r ∈ (createRepository ctxDemo "demo" "d" ["js"] Store.empty).2.modifications,
        (∃ f ∈ (createRepository ctxDemo "demo" "d" ["js"] Store.empty).2.files,
          r.file = f.id ∧ f.repo = rp.id) ∧
        (∃ k ∈ (createRepository ctxDemo "demo" "d" ["js"] Store.empty).2.commits,
          r.commit = k.id ∧ k.repo = rp.id) :=
  c6_no_dangling_references ctxDemo "demo" "d" ["js"]
    (createRepository ctxDemo "demo" "d" ["js"] Store.empty).2 rfl

/-- Claim C7: in every successful ingestion from an empty store, every
persisted File whose path is absent from the extracted files listing (a
reconciliation placeholder) has the sentinel size "N/A", a null Language
reference, the historical modification path as its path, and as name the
final path segment after the last '/' separator; and some extracted
modification carries exactly that path. -/
theorem c7_placeholder_shape (ctx : Ctx) (name description : String)
    (languages : List String) (st' : Store)
    (h : createRepository ctx name description languages Store.empty =
      (.success, st')) :
    ∀ f ∈ st'.files, f.path ∉ ctx.info.files.map (fun x => x.path) →
      f.size = "N/A" ∧ f.language = none ∧ f.name = baseNameOf f.path ∧
      '/' ∉ f.name.data ∧
      (f.name = f.path ∨ ∃ pre : List Char, f.path.data = pre ++ '/' :: f.name.data) ∧
      ∃ m ∈ ctx.info.modifications, m.file = f.path := by
  obtain ⟨repoRow, bs, ks, frows, pRows, mods6, mods8, a1, a2, a3, a4, a5, a6, a7,
    a8, a9, a10, a11, a12, a13, a14, a15⟩ :=
    run_success_spec ctx name description languages st' h
  intro f hf hnotin
  rw [a4] at hf
  rcases List.mem_append.mp hf with hf6 | hf8
  · obtain ⟨fin, hfin, hshape⟩ := forall₂_mem_left a12 hf6
    refine absurd ?_ hnotin
    rw [hshape.2.2.1]
    exact List.mem_map_of_mem (fun x => x.path) hfin
  · obtain ⟨r, hzip⟩ := mem_zip_left_of_mem a14 hf8
    obtain ⟨m, hm, hrel⟩ := forall₂_mem_left a15 hzip
    obtain ⟨hn, hs, hp, hrepo, hlang, htype, hfile, hkex⟩ := hrel
    have hm2 : m ∈ ctx.info.modifications := (List.mem_filter.mp hm).1
    refine ⟨hs, hlang, ?_, ?_, ?_, ⟨m, hm2, hp.symm⟩⟩
    · rw [hn, hp]
    · rw [hn]
      exact baseNameOf_no_slash m.file
    · rw [hn, hp]
      exact baseNameOf_splits m.file

/-- Claim C7 (witness): the demo import contains the placeholder File row
for "old/util.py", and it has the specified shape. -/
theorem c7_witness :
    ("N/A" : String) = "N/A" ∧ (none : Option Nat) = none ∧
    ("util.py" : String) = baseNameOf "old/util.py" ∧
    ('/' : Char) ∉ ("util.py" : String).data ∧
    (("util.py" : String) = "old/util.py" ∨
      ∃ pre : List Char,
        ("old/util.py" : String).data = pre ++ '/' :: ("util.py" : String).data) ∧
    ∃ m ∈ ctxDemo.info.modifications, m.file = "old/util.py" :=
  c7_placeholder_shape ctxDemo "demo" "d" ["js"]
    (createRepository ctxDemo "demo" "d" ["js"] Store.empty).2 rfl
    ⟨8, "util.py", "N/A", "old/util.py", 0, none⟩ (by decide) (by decide)

/-- Claim C10: for every extracted file whose name contains no '.', the
extension handed to the registry is the entire file name (the failed
last-'.' search plus one yields slice start 0), and in a successful
ingestion such a file's persisted row carries exactly the registry's
answer for the whole name as its Language reference. -/
theorem c10_extension_whole_name (ctx : Ctx) (name description : String)
    (languages : List String) (st' : Store)
    (h : createRepository ctx name description languages Store.empty =
      (.success, st')) :
    ∀ fin ∈ ctx.info.files, ('.' ∉ fin.name.data) →
      extOf fin.name = fin.name ∧
      ∃ row ∈ st'.files, row.name = fin.name ∧ row.path = fin.path ∧
        row.language = ctx.getByExt fin.name := by
  obtain ⟨repoRow, bs, ks, frows, pRows, mods6, mods8, a1, a2, a3, a4, a5, a6, a7,
    a8, a9, a10, a11, a12, a13, a14, a15⟩ :=
    run_success_spec ctx name description languages st' h
  intro fin hfin hnd
  have he := extOf_of_no_dot fin.name hnd
  obtain ⟨row, hrow, hshape⟩ := forall₂_mem_right a12 hfin
  refine ⟨he, row, ?_, hshape.1, hshape.2.2.1, ?_⟩
  · rw [a4]
    exact List.mem_append_left _ hrow
  · rw [hshape.2.2.2.2, he]

/-- Claim C10 (witness): the extensionless file "Makefile" of the demo
run gets the registry's answer for the whole name "Makefile". -/
theorem c10_witness :
    extOf "Makefile" = "Makefile" ∧
    ∃ row ∈ (createRepository ctxDemo "demo" "d" ["js"] Store.empty).2.files,
      row.name = "Makefile" ∧ row.path = "Makefile" ∧
      row.language = ctxDemo.getByExt "Makefile" :=
  c10_extension_whole_name ctxDemo "demo" "d" ["js"]
    (createRepository ctxDemo "demo" "d" ["js"] Store.empty).2 rfl
    ⟨"Makefile", "5", "Makefile"⟩ (by decide) (by decide)

/-- Claim C5: in every successful ingestion from an empty store, the
persisted Branch names are exactly the extracted branch names, and for
every extracted commit (paired positionally with its persisted row) a
branch name is linked to the commit through a Commit_Branch row exactly
when it appears both in the commit's declared branch-name list and among
the repository's persisted Branch names. -/
theorem c5_commit_branch_intersection (ctx : Ctx) (name description : String)
    (languages : List String) (st' : Store)
    (h : createRepository ctx name description languages Store.empty =
      (.success, st')) :
    st'.branches.map (fun b => b.name) = ctx.info.branches.map (fun b => b.name) ∧
    List.Forall₂ (fun (k : CommitRow) (c : CommitIn) => k.hash = c.hash ∧
      ∀ nm : String,
        (∃ r ∈ st'.commitBranches, r.commit = k.id ∧
          st'.branchNameOf r.branch = some nm) ↔
        (nm ∈ c.branches ∧ nm ∈ st'.branches.map (fun b => b.name)))
      st'.commits ctx.info.commits := by
  obtain ⟨repoRow, bs, ks, frows, pRows, mods6, mods8, a1, a2, a3, a4, a5, a6, a7,
    a8, a9, a10, a11, a12, a13, a14, a15⟩ :=
    run_success_spec ctx name description languages st' h
  constructor
  · rw [a2]
    exact a7
  · rw [a3]
    refine List.forall₂_iff_zip.mpr ⟨a11.length_eq, ?_⟩
    intro k c hm
    have hhash : k.hash = c.hash := ((List.forall₂_iff_zip.mp a11).2 hm).1
    refine ⟨hhash, ?_⟩
    have hfst : (ks.zip ctx.info.commits).map Prod.fst = ks :=
      List.map_fst_zip _ _ (le_of_eq a11.length_eq)
    have hndp : ((ks.zip ctx.info.commits).map (fun p => p.1.id)).Nodup := by
      have he : (ks.zip ctx.info.commits).map (fun p => p.1.id) =
          ((ks.zip ctx.info.commits).map Prod.fst).map (fun k => k.id) := by
        rw [List.map_map]
        rfl
      rw [he, hfst]
      exact a9
    have hfilter := cb_filter_eq bs (ks.zip ctx.info.commits) hndp k c hm
    have hname : ∀ b ∈ bs, st'.branchNameOf b.id = some b.name := by
      intro b hb
      unfold Store.branchNameOf
      rw [a2]
      rw [find_by_unique_key (fun x : BranchRow => x.id) bs b hb a8]
      rfl
    intro nm
    constructor
    · rintro ⟨r, hrmem, hrc, hrname⟩
      rw [a6] at hrmem
      have hrf : r ∈ ((ks.zip ctx.info.commits).flatMap (fun p =>
          (bs.filter (fun b => p.2.branches.contains b.name)).map
            (fun b => (⟨p.1.id, b.id⟩ : CommitBranchRow)))).filter
              (fun r => r.commit == k.id) :=
        List.mem_filter.mpr ⟨hrmem, by simp [hrc]⟩
      rw [hfilter] at hrf
      rcases List.mem_map.mp hrf with ⟨b, hbf, rfl⟩
      have hbbs : b ∈ bs := (List.mem_filter.mp hbf).1
      have hcont : (c.branches.contains b.name) = true := (List.mem_filter.mp hbf).2
      have hbn := hname b hbbs
      have hnmeq : b.name = nm := Option.some.inj (hbn.symm.trans hrname)
      subst hnmeq
      constructor
      · exact List.elem_iff.mp hcont
      · rw [a2]
        exact List.mem_map_of_mem (fun b => b.name) hbbs
    · rintro ⟨hnmc, hnmb⟩
      rw [a2] at hnmb
      rcases List.mem_map.mp hnmb with ⟨b, hbbs, hbn⟩
      have hcont : (c.branches.contains b.name) = true := by
        rw [hbn]
        exact List.elem_iff.mpr hnmc
      have hbf : b ∈ bs.filter (fun b => c.branches.contains b.name) :=
        List.mem_filter.mpr ⟨hbbs, hcont⟩
      have hrmem2 : (⟨k.id, b.id⟩ : CommitBranchRow) ∈
          ((ks.zip ctx.info.commits).flatMap (fun p =>
            (bs.filter (fun b => p.2.branches.contains b.name)).map
              (fun b => (⟨p.1.id, b.id⟩ : CommitBranchRow)))).filter
                (fun r => r.commit == k.id) := by
        rw [hfilter]
        exact List.mem_map_of_mem _ hbf
      refine ⟨⟨k.id, b.id⟩, ?_, rfl, ?_⟩
      · rw [a6]
        exact (List.mem_filter.mp hrmem2).1
      · show st'.branchNameOf b.id = some nm
        rw [hname b hbbs, hbn]

/-- Claim C5 (witness): the demo import links each commit exactly to its
declared branches that were created for the repository. -/
theorem c5_witness :
    (createRepository ctxDemo "demo" "d" ["js"] Store.empty).2.branches.map
      (fun b => b.name) = ctxDemo.info.branches.map (fun b => b.name) ∧
    List.Forall₂ (fun (k : CommitRow) (c : CommitIn) => k.hash = c.hash ∧
      ∀ nm : String,
        (∃ r ∈ (createRepository ctxDemo "demo" "d" ["js"] Store.empty).2.commitBranches,
          r.commit = k.id ∧
          (createRepository ctxDemo "demo" "d" ["js"] Store.empty).2.branchNameOf
            r.branch = some nm) ↔
        (nm ∈ c.branches ∧
          nm ∈ (createRepository ctxDemo "demo" "d" ["js"] Store.empty).2.branches.map
            (fun b => b.name)))
      (createRepository ctxDemo "demo" "d" ["js"] Store.empty).2.commits
      ctxDemo.info.commits :=
  c5_commit_branch_intersection ctxDemo "demo" "d" ["js"]
    (createRepository ctxDemo "demo" "d" ["js"] Store.empty).2 rfl

/-- Claim C9: assuming the extracted file paths are pairwise distinct, in
every successful ingestion from an empty store the persisted Modification
rows, each read back as (hash of its commit, path of its file, its type),
are exactly a permutation of the extracted modifications list: every
extracted modification is persisted exactly once, against the file row
carrying its path (a step-6 row, or a reconciliation placeholder). -/
theorem c9_modifications_exactly_once (ctx : Ctx) (name description : String)
    (languages : List String) (st' : Store)
    (hnd : (ctx.info.files.map (fun f => f.path)).Nodup)
    (h : createRepository ctx name description languages Store.empty =
      (.success, st')) :
    List.Perm (st'.modifications.map (modShadow st'))
      (ctx.info.modifications.map (fun m => (some m.commit, (some m.file, m.type)))) := by
  obtain ⟨repoRow, bs, ks, frows, pRows, mods6, mods8, a1, a2, a3, a4, a5, a6, a7,
    a8, a9, a10, a11, a12, a13, a14, a15⟩ :=
    run_success_spec ctx name description languages st' h
  have hkfind : ∀ k ∈ ks, st'.commits.find? (fun x => x.id == k.id) = some k := by
    intro k hk
    rw [a3]
    exact find_by_unique_key (fun x : CommitRow => x.id) ks k hk a9
  have hffind : ∀ frow ∈ frows ++ pRows,
      st'.files.find? (fun x => x.id == frow.id) = some frow := by
    intro frow hf
    rw [a4]
    exact find_by_unique_key (fun x : FileRow => x.id) (frows ++ pRows) frow hf a10
  have hm6 : mods6.map (modShadow st') =
      (ctx.info.files.flatMap (fun f =>
        ctx.info.modifications.filter (fun m => m.file == f.path))).map
        (fun m => (some m.commit, (some m.file, m.type))) := by
    refine forall₂_map_proj _ _ a13 ?_
    intro r m hrel
    obtain ⟨htype, ⟨frow, hfrow, hrfile, hfp⟩, k, hk, hrc, hkh⟩ := hrel
    unfold modShadow
    rw [hrc, hrfile, hkfind k hk, hffind frow (List.mem_append_left _ hfrow)]
    simp [htype, hkh, hfp]
  have a15s : List.Forall₂ (fun (p : FileRow × ModRow) (m : ModIn) =>
      p.1 ∈ pRows ∧ p.2.type = m.type ∧ p.2.file = p.1.id ∧ p.1.path = m.file ∧
      ∃ k ∈ ks, p.2.commit = k.id ∧ k.hash = m.commit)
      (pRows.zip mods8)
      (ctx.info.modifications.filter
        (fun m => !(frows.any (fun f => f.path == m.file)))) :=
    forall₂_imp_mem a15 (fun p m hp hm hrel =>
      ⟨(List.of_mem_zip hp).1, hrel.2.2.2.2.2.1, hrel.2.2.2.2.2.2.1, hrel.2.2.1,
        hrel.2.2.2.2.2.2.2⟩)
  have hzipmap : (pRows.zip mods8).map (fun p => modShadow st' p.2) =
      (ctx.info.modifications.filter
        (fun m => !(frows.any (fun f => f.path == m.file)))).map
        (fun m => (some m.commit, (some m.file, m.type))) := by
    refine forall₂_map_proj _ _ a15s ?_
    intro p m hrel
    obtain ⟨hpmem, htype, hfile, hp2, k, hk, hrc, hkh⟩ := hrel
    unfold modShadow
    rw [hrc, hfile, hkfind k hk, hffind p.1 (List.mem_append_right _ hpmem)]
    simp [htype, hkh, hp2]
  have hsnd : (pRows.zip mods8).map Prod.snd = mods8 :=
    List.map_snd_zip _ _ (le_of_eq a14.symm)
  have hm8 : mods8.map (modShadow st') =
      (ctx.info.modifications.filter
        (fun m => !(frows.any (fun f => f.path == m.file)))).map
        (fun m => (some m.commit, (some m.file, m.type))) := by
    rw [← hsnd, List.map_map, ← hzipmap]
    rfl
  have hpaths : frows.map (fun f => f.path) =
      ctx.info.files.map (fun f => f.path) :=
    forall₂_map_proj _ _ a12 (fun a b hr => hr.2.2.1)
  have hdms : ctx.info.modifications.filter
        (fun m => !(frows.any (fun f => f.path == m.file))) =
      ctx.info.modifications.filter
        (fun m => !(ctx.info.files.any (fun f => f.path == m.file))) := by
    refine List.filter_congr ?_
    intro m hm
    rw [any_eq_of_map_proj (fun f : FileRow => f.path) (fun f : FileIn => f.path)
      (fun s => s == m.file) hpaths]
  rw [a5, List.map_append, hm6, hm8, hdms, ← List.map_append]
  exact List.Perm.map _ (partition_perm ctx.info.files ctx.info.modifications hnd)

/-- Claim C9 (witness): the demo import persists exactly one Modification
per extracted modification, resolving to the right path and hash. -/
theorem c9_witness :
    List.Perm
      ((createRepository ctxDemo "demo" "d" ["js"] Store.empty).2.modifications.map
        (modShadow (createRepository ctxDemo "demo" "d" ["js"] Store.empty).2))
      (ctxDemo.info.modifications.map
        (fun m => (some m.commit, (some m.file, m.type)))) :=
  c9_modifications_exactly_once ctxDemo "demo" "d" ["js"]
    (createRepository ctxDemo "demo" "d" ["js"] Store.empty).2 (by decide) rfl

end Reepos
